import Mathlib

/-
  Verification of the soundsync audio chunk-stream pipeline
  (src/utils/audio/chunk_stream.ts) against its specification.

  Shallow embedding conventions:
  * A byte is a `Nat` (values < 256 where the source produces real bytes).
  * `Buffer` / `Uint8Array` contents are `List Nat`.
  * JS numbers holding chunk indices are `Nat` (they come from
    `DataView.getUint32`, hence are in [0, 2^32)); the sentinel `-1` used by
    the source for "no index yet" is modelled as `Option Nat = none`.
  * Stateful stream classes are modelled as explicit state-transition
    functions `state → input → state × emitted-items`; a whole run is a fold
    over the input list.
-/

namespace Soundsync

/-! ### Framer (AudioChunkStreamEncoder) and Deframer (AudioChunkStreamDecoder) -/

/-- The four big-endian bytes written by
`new DataView(...).setUint32(0, i)` for `0 ≤ i < 2^32`
(chunk_stream.ts line 120). -/
def be32 (i : Nat) : List Nat :=
  [i / 2 ^ 24 % 256, i / 2 ^ 16 % 256, i / 2 ^ 8 % 256, i % 256]

/-- `AudioChunkStreamEncoder.write` (chunk_stream.ts lines 115-127): the
emitted wire record is the 4-byte big-endian index followed by the payload
bytes.  JS `setUint32` applies ToUint32, i.e. reduces the index mod 2^32. -/
def encoderWrite (i : Nat) (chunk : List Nat) : List Nat :=
  be32 (i % 2 ^ 32) ++ chunk

/-- Outcome of one `AudioChunkStreamDecoder.write` call.  `emitted i chunk`
models `super.write({i, chunk})`; `error` models an exception escaping the
call (the source has no guard on the record length, so
`DataView.getUint32(0)` on a view of fewer than 4 bytes throws a
`RangeError`). -/
inductive DecodeResult where
  | emitted (i : Nat) (chunk : List Nat)
  | error
deriving DecidableEq, Repr

/-- `AudioChunkStreamDecoder.write` (chunk_stream.ts lines 136-147) applied
to the exact bytes of one wire record: read the big-endian 32-bit index,
then `input.slice(4)` copies the remaining bytes.  A record shorter than 4
bytes makes `getUint32(0)` read out of bounds, which throws. -/
def decoderWrite : List Nat → DecodeResult
  | b0 :: b1 :: b2 :: b3 :: rest =>
    .emitted (b0 * 2 ^ 24 + b1 * 2 ^ 16 + b2 * 2 ^ 8 + b3) rest
  | _ => .error

end Soundsync

/-! ## C1: Framer composed with Deframer is the identity -/

/-- C1.  Framer ∘ Deframer is the identity: for every `i < 2^32` and every
payload, encoding `(i, payload)` to the wire record `be32(i) ++ payload` and
decoding it back yields `(i, payload)`; in particular for
`(0xDEADBEEF, [0x01,0x02,0x03])` the encoder emits exactly
`[0xDE,0xAD,0xBE,0xEF,0x01,0x02,0x03]` and the decoder returns
`(0xDEADBEEF, [0x01,0x02,0x03])`.  (The payload is returned as a value;
the aliasing/copy distinction of `input.slice(4)` is not observable in the
embedding.) -/
theorem framer_deframer_roundtrip :
    (∀ (i : Nat) (p : List Nat), i < 2 ^ 32 →
      Soundsync.decoderWrite (Soundsync.encoderWrite i p) =
        Soundsync.DecodeResult.emitted i p) ∧
    Soundsync.encoderWrite 0xDEADBEEF [0x01, 0x02, 0x03] =
      [0xDE, 0xAD, 0xBE, 0xEF, 0x01, 0x02, 0x03] ∧
    Soundsync.decoderWrite [0xDE, 0xAD, 0xBE, 0xEF, 0x01, 0x02, 0x03] =
      Soundsync.DecodeResult.emitted 0xDEADBEEF [0x01, 0x02, 0x03] := by
  refine ⟨?_, by decide, by decide⟩
  intro i p hi
  have hmod : i % 2 ^ 32 = i := Nat.mod_eq_of_lt hi
  simp only [Soundsync.encoderWrite, Soundsync.be32, hmod, List.cons_append,
    List.nil_append, Soundsync.decoderWrite, Soundsync.DecodeResult.emitted.injEq]
  exact ⟨by omega, trivial⟩

/-- Witness for C1: the round-trip theorem applied at the concrete input
`(3, [5])`. -/
theorem framer_deframer_roundtrip_witness :
    Soundsync.decoderWrite (Soundsync.encoderWrite 3 [5]) =
      Soundsync.DecodeResult.emitted 3 [5] :=
  framer_deframer_roundtrip.1 3 [5] (by decide)

/-! ## C6: Deframer on records shorter than 4 bytes -/

/-- Counterexample for C6.  The claim says a record shorter than 4 bytes is
discarded without raising an error out of the pipeline; but
`AudioChunkStreamDecoder.write` has no length guard, so on the 3-byte record
`[1,2,3]` the big-endian index read (`DataView.getUint32(0)` over a 3-byte
view) throws a `RangeError`, modelled as `DecodeResult.error`, not a silent
discard. -/
theorem deframer_short_record_cex :
    Soundsync.decoderWrite [1, 2, 3] = Soundsync.DecodeResult.error := by decide

/-- C6 (amended).  For every input record shorter than 4 bytes, the Deframer
raises an error (the 4-byte big-endian index read fails out of bounds):
nothing is emitted, but the record is not silently discarded and no discard
count is kept. -/
theorem deframer_short_record (input : List Nat) (h : input.length < 4) :
    Soundsync.decoderWrite input = Soundsync.DecodeResult.error := by
  match input, h with
  | [], _ => rfl
  | [_], _ => rfl
  | [_, _], _ => rfl
  | [_, _, _], _ => rfl
  | _ :: _ :: _ :: _ :: _, h => exact absurd h (by simp)

/-- Witness for C6 (amended): the theorem applied at the 2-byte record
`[7, 7]`. -/
theorem deframer_short_record_witness :
    Soundsync.decoderWrite [7, 7] = Soundsync.DecodeResult.error :=
  deframer_short_record [7, 7] (by decide)

namespace Soundsync

/-! ### Orderer (AudioChunkStreamOrderer) -/

/-- An indexed frame as it flows through the Orderer
(`AudioChunkStreamOutput`): index `i` and payload bytes `chunk`. -/
structure OChunk where
  i : Nat
  chunk : List Nat
deriving DecidableEq, Repr

/-- `AudioChunkStreamOrderer` state: the reorder `buffer` and
`nextEmittableChunkIndex` (`none` models the initial sentinel `-1`). -/
structure OState where
  buffer : List OChunk
  next : Option Nat
deriving DecidableEq, Repr

/-- Initial Orderer state: empty buffer, `nextEmittableChunkIndex = -1`. -/
def initOState : OState := ⟨[], none⟩

/-- `emitNextChunksInBuffer` (chunk_stream.ts lines 161-166): while the
buffer head's index equals `nextEmittableChunkIndex`, emit it (each
`emitChunk` sets the next emittable index to the emitted index + 1) and drop
it from the buffer.  Returns (new next index, remaining buffer, emitted
frames in order). -/
def emitNextChunks : Nat → List OChunk → Nat × List OChunk × List OChunk
  | n, [] => (n, [], [])
  | n, c :: rest =>
    if c.i = n then
      let r := emitNextChunks (c.i + 1) rest
      (r.1, r.2.1, c :: r.2.2)
    else (n, c :: rest, [])

/-- `this.buffer.sort((a, b) => a.i - b.i)` (chunk_stream.ts line 191):
JS `Array.prototype.sort` is the stable ascending sort for this comparator,
which is extensionally the insertion sort by `·.i ≤ ·.i`. -/
def sortChunks (l : List OChunk) : List OChunk :=
  l.insertionSort (fun a b => a.i ≤ b.i)

/-- The overflow block of `AudioChunkStreamOrderer.write`
(chunk_stream.ts lines 194-211), given the current next emittable index `n`
and the (already drained) buffer: when the buffer is nonempty and holds at
least `max` frames, emit a synthetic empty frame for `n` when
`buffer[0].i - n === 1`, force the next emittable index to `buffer[0].i`,
and drain the contiguous head.  Returns (next index, buffer, emitted). -/
def ordererOverflow (max n : Nat) (buf : List OChunk) :
    Nat × List OChunk × List OChunk :=
  match buf with
  | [] => (n, [], [])
  | hd :: tl =>
    if max ≤ (hd :: tl).length then
      let em3 : List OChunk := if hd.i - n = 1 then [⟨n, []⟩] else []
      let r4 := emitNextChunks hd.i (hd :: tl)
      (r4.1, r4.2.1, em3 ++ r4.2.2)
    else (n, hd :: tl, [])

/-- `AudioChunkStreamOrderer.write` (chunk_stream.ts lines 173-218) with
`max` = `maxUnorderedChunks`.  Returns the new state and the frames emitted
(in order) by this call.  Late frames (index below the next emittable one)
are dropped; an in-order frame is emitted directly; an out-of-order frame is
appended to the buffer; the buffer is then sorted and its contiguous head
drained; finally the overflow block runs. -/
def ordererWrite (max : Nat) (s : OState) (d : OChunk) : OState × List OChunk :=
  let n0 := s.next.getD d.i
  if d.i < n0 then (⟨s.buffer, some n0⟩, [])
  else
    let step1 : Nat × List OChunk × List OChunk :=
      if d.i = n0 then (d.i + 1, s.buffer, [d]) else (n0, s.buffer ++ [d], [])
    let r2 := emitNextChunks step1.1 (sortChunks step1.2.1)
    let r4 := ordererOverflow max r2.1 r2.2.1
    (⟨r4.2.1, some r4.1⟩, step1.2.2 ++ r2.2.2 ++ r4.2.2)

/-- Feed a list of frames through the Orderer from a given state, collecting
all emitted frames in order. -/
def ordererRun (max : Nat) : OState → List OChunk → OState × List OChunk
  | s, [] => (s, [])
  | s, d :: ds =>
    let r := ordererWrite max s d
    let rest := ordererRun max r.1 ds
    (rest.1, r.2 ++ rest.2)

/-- The frames emitted by the Orderer on an input sequence, starting from
the initial state. -/
def ordererEmitted (max : Nat) (inputs : List OChunk) : List OChunk :=
  (ordererRun max initOState inputs).2

end Soundsync

/-! ## C2: Orderer output indices strictly increasing -/

/-- C2 (code bug).  The claim — and the spec invariant the Orderer is meant
to provide (the source comments it exists so that the opus decoder, which
"expect[s] an ordered chunk stream", sees ordered chunks) — says emitted
indices are strictly increasing even when the transport duplicates records.
The code violates it: a duplicate of a chunk that is sitting in the reorder
buffer is pushed into the buffer a second time, survives the contiguous
drain (the drain advances past the first copy), and is re-emitted by the
overflow path.  On input indices `[0,2,2,1,4,5,6,7,8,9,10,11,12]` with
`maxUnorderedChunks = 10` the Orderer emits indices `[0,1,2,2]`: index 2 is
emitted twice, which is not strictly increasing. -/
theorem orderer_duplicate_not_increasing :
    (Soundsync.ordererEmitted 10
        ([0, 2, 2, 1, 4, 5, 6, 7, 8, 9, 10, 11, 12].map
          (fun k => Soundsync.OChunk.mk k [0]))).map Soundsync.OChunk.i =
      [0, 1, 2, 2] ∧
    ¬ List.Chain' (fun a b : Nat => a < b) [0, 1, 2, 2] :=
  ⟨by decide, by simp [List.chain'_cons]⟩

namespace Soundsync

/-- The remaining buffer after a drain is never longer than the buffer the
drain started from. -/
theorem emitNextChunks_buffer_length (n : Nat) (l : List OChunk) :
    (emitNextChunks n l).2.1.length ≤ l.length := by
  induction l generalizing n with
  | nil => simp [emitNextChunks]
  | cons c rest ih =>
    rw [emitNextChunks]
    split
    · exact le_trans (ih (c.i + 1)) (Nat.le_succ _)
    · exact Nat.le_refl _

/-- Sorting the buffer does not change its length. -/
theorem sortChunks_length (l : List OChunk) :
    (sortChunks l).length = l.length :=
  (List.perm_insertionSort _ l).length_eq

/-- The overflow block leaves at most `max - 1` frames in the buffer
(truncated subtraction, so the bound is `0` when `max = 0`): when it fires
it always drains at least the buffer head. -/
theorem ordererOverflow_buffer_le (max n : Nat) (buf : List OChunk)
    (h : buf.length - 1 ≤ max - 1) :
    (ordererOverflow max n buf).2.1.length ≤ max - 1 := by
  have hdrain : ∀ (hd : OChunk) (tl : List OChunk),
      (emitNextChunks hd.i (hd :: tl)).2.1 = (emitNextChunks (hd.i + 1) tl).2.1 := by
    intro hd tl
    rw [emitNextChunks]
    simp
  match buf with
  | [] => simp [ordererOverflow]
  | hd :: tl =>
    rw [ordererOverflow]
    split
    · rename_i hmax
      simp only [hdrain]
      have := emitNextChunks_buffer_length (hd.i + 1) tl
      simp only [List.length_cons] at h hmax
      omega
    · rename_i hmax
      simp only [List.length_cons] at hmax h ⊢
      omega

/-- One Orderer write preserves the buffer-size bound
`buffer.length ≤ max - 1`. -/
theorem ordererWrite_buffer_le (max : Nat) (s : OState) (d : OChunk)
    (h : s.buffer.length ≤ max - 1) :
    (ordererWrite max s d).1.buffer.length ≤ max - 1 := by
  rw [ordererWrite]
  split
  · exact h
  · simp only
    apply ordererOverflow_buffer_le
    have hstep : (if d.i = s.next.getD d.i then (d.i + 1, s.buffer, [d])
        else (s.next.getD d.i, s.buffer ++ [d],
          ([] : List OChunk))).2.1.length ≤ s.buffer.length + 1 := by
      split <;> simp
    have hchain : (emitNextChunks
        (if d.i = s.next.getD d.i then (d.i + 1, s.buffer, [d])
          else (s.next.getD d.i, s.buffer ++ [d], ([] : List OChunk))).1
        (sortChunks (if d.i = s.next.getD d.i then (d.i + 1, s.buffer, [d])
          else (s.next.getD d.i, s.buffer ++ [d],
            ([] : List OChunk))).2.1)).2.1.length ≤ s.buffer.length + 1 := by
      calc _ ≤ (sortChunks _).length := emitNextChunks_buffer_length _ _
        _ = _ := sortChunks_length _
        _ ≤ s.buffer.length + 1 := hstep
    omega

end Soundsync

/-! ## C9: Orderer buffer holds at most max_unordered frames -/

/-- C9.  After every completed Orderer write — i.e. after any input sequence
fed from the initial state — the reorder buffer holds at most
`maxUnorderedChunks` frames. -/
theorem orderer_buffer_bounded (max : Nat) (inputs : List Soundsync.OChunk) :
    (Soundsync.ordererRun max Soundsync.initOState inputs).1.buffer.length ≤ max := by
  have main : ∀ (l : List Soundsync.OChunk) (s : Soundsync.OState),
      s.buffer.length ≤ max - 1 →
      (Soundsync.ordererRun max s l).1.buffer.length ≤ max - 1 := by
    intro l
    induction l with
    | nil => intro s hs; exact hs
    | cons d ds ih =>
      intro s hs
      rw [Soundsync.ordererRun]
      exact ih _ (Soundsync.ordererWrite_buffer_le max s d hs)
  have h0 : (Soundsync.initOState).buffer.length ≤ max - 1 := by
    simp [Soundsync.initOState]
  exact le_trans (main inputs _ h0) (Nat.sub_le _ _)


/-! ## C3: Orderer overflow policy -/

/-- C3.  Overflow policy of the Orderer.  General part: when a received
frame `d` (with `next < d.i`, so it is inserted) leaves the sorted buffer as
`hd :: tl` with `hd.i ≠ next` (nothing drains immediately) and at least
`max_unordered` frames, then the write (a) emits a synthetic
`(next, empty)` frame first exactly when `hd.i - next = 1`, (b) sets the
next emittable index by (c) draining the contiguous head of the buffer
starting from `hd.i`.  Concrete parts: on input indices
`[0,2,3,4,5,6,7,8,9,10,11]` with `max_unordered = 10` the Orderer emits
frame 0, a synthetic `(1, empty)`, then frames 2..11; on input indices
`[0,5,6,7,8,9,10,11,12,13,14]` it skips directly to 5 and emits no
synthetic frame. -/
theorem orderer_overflow_policy :
    (∀ (max : Nat) (s : Soundsync.OState) (d : Soundsync.OChunk) (n : Nat)
        (hd : Soundsync.OChunk) (tl : List Soundsync.OChunk),
      s.next = some n → n < d.i →
      Soundsync.sortChunks (s.buffer ++ [d]) = hd :: tl →
      hd.i ≠ n → max ≤ (hd :: tl).length →
      Soundsync.ordererWrite max s d =
        (⟨(Soundsync.emitNextChunks hd.i (hd :: tl)).2.1,
          some (Soundsync.emitNextChunks hd.i (hd :: tl)).1⟩,
         (if hd.i = n + 1 then [Soundsync.OChunk.mk n []] else []) ++
           (Soundsync.emitNextChunks hd.i (hd :: tl)).2.2)) ∧
    Soundsync.ordererEmitted 10
        ([0, 2, 3, 4, 5, 6, 7, 8, 9, 10, 11].map
          (fun k => Soundsync.OChunk.mk k [9])) =
      Soundsync.OChunk.mk 0 [9] :: Soundsync.OChunk.mk 1 [] ::
        ([2, 3, 4, 5, 6, 7, 8, 9, 10, 11].map
          (fun k => Soundsync.OChunk.mk k [9])) ∧
    Soundsync.ordererEmitted 10
        ([0, 5, 6, 7, 8, 9, 10, 11, 12, 13, 14].map
          (fun k => Soundsync.OChunk.mk k [9])) =
      [0, 5, 6, 7, 8, 9, 10, 11, 12, 13, 14].map
        (fun k => Soundsync.OChunk.mk k [9]) := by
  refine ⟨?_, by decide, by decide⟩
  intro max s d n hd tl hnext hlt hsort hne hmax
  simp only [Soundsync.ordererWrite, hnext, Option.getD_some,
    if_neg (by omega : ¬ d.i < n), if_neg (by omega : ¬ d.i = n)]
  rw [hsort]
  rw [Soundsync.emitNextChunks]
  rw [if_neg hne]
  simp only [Soundsync.ordererOverflow, if_pos hmax]
  have hiff : (hd.i - n = 1) = (hd.i = n + 1) := propext (by omega)
  simp [hiff]

/-- Witness for C3: the general overflow statement applied to the concrete
write that triggers the overflow in scenario S6 (buffer `[2..10]`, next
emittable index 1, incoming frame 11, `max_unordered = 10`). -/
theorem orderer_overflow_policy_witness :
    Soundsync.ordererWrite 10
      ⟨[2, 3, 4, 5, 6, 7, 8, 9, 10].map (fun k => Soundsync.OChunk.mk k [9]),
        some 1⟩ (Soundsync.OChunk.mk 11 [9]) =
      (⟨(Soundsync.emitNextChunks 2
            ([2, 3, 4, 5, 6, 7, 8, 9, 10, 11].map
              (fun k => Soundsync.OChunk.mk k [9]))).2.1,
        some (Soundsync.emitNextChunks 2
            ([2, 3, 4, 5, 6, 7, 8, 9, 10, 11].map
              (fun k => Soundsync.OChunk.mk k [9]))).1⟩,
       (if (2 : Nat) = 1 + 1 then [Soundsync.OChunk.mk 1 []] else []) ++
         (Soundsync.emitNextChunks 2
            ([2, 3, 4, 5, 6, 7, 8, 9, 10, 11].map
              (fun k => Soundsync.OChunk.mk k [9]))).2.2) :=
  orderer_overflow_policy.1 10
    ⟨[2, 3, 4, 5, 6, 7, 8, 9, 10].map (fun k => Soundsync.OChunk.mk k [9]),
      some 1⟩
    (Soundsync.OChunk.mk 11 [9]) 1 (Soundsync.OChunk.mk 2 [9])
    ([3, 4, 5, 6, 7, 8, 9, 10, 11].map (fun k => Soundsync.OChunk.mk k [9]))
    rfl (by decide) (by decide) (by decide) (by decide)

namespace Soundsync

/-! ### Chunker (AudioChunkStream)

The Chunker couples a wall clock (`now() - startTime`), a periodic timer and
the source's readable events.  Its observable behaviour is a state machine
driven by two kinds of events: a single iteration of the
`_pushNecessaryChunks` while-loop (chunk_stream.ts lines 66-105), happening
at some time `t` with some read result, and a 'readable' notification from
the source (`startReadLoop`, lines 46-53).  A loop iteration that breaks
(future chunk, or no data) ends the current `_pushNecessaryChunks` call; the
next event is then the first iteration of the next call, so a flat event
list covers every real interleaving of timer ticks and readable signals. -/

/-- `AudioChunkStream` mutable state: `lastEmittedChunkIndex` (`none` models
the sentinel `-1`) and `loopIterationWithoutData`. -/
structure CState where
  last : Option Nat
  idle : Nat
deriving DecidableEq, Repr

/-- State at construction (and after `stopReadLoop`):
`lastEmittedChunkIndex = -1`, `loopIterationWithoutData = 0`. -/
def initCState : CState := ⟨none, 0⟩

/-- One input to the Chunker state machine: `iter t r` is one iteration of
the `_pushNecessaryChunks` loop at time `t` (ms since `startTime`, the value
of `this.now()`), with `r` the result of `sourceStream.read(chunkSize)`
(`none` models a `null` read); `readable` is a 'readable' notification
(`startReadLoop` always zeroes `loopIterationWithoutData` first, even when
the read interval is already running). -/
inductive CEvent where
  | iter (t : Nat) (r : Option (List Nat))
  | readable
deriving DecidableEq, Repr

/-- One chunk emission: index, iteration time, emitted bytes, and whether
the index was recomputed from the clock (`lastEmittedChunkIndex === -1`
when the iteration ran). -/
structure Emit where
  idx : Nat
  t : Nat
  chunk : List Nat
  fresh : Bool
deriving DecidableEq, Repr

/-- What one Chunker event did: broke because the chunk is in the future,
read nothing, read nothing and stopped the read loop (`stopReadLoop`),
emitted a chunk, or processed a readable notification. -/
inductive CAction where
  | future
  | nullRead
  | stopped
  | emitted (e : Emit)
  | readable
deriving DecidableEq, Repr

/-- Lines 89-96: an incomplete read (end-of-stream tail) is completed to
`size` bytes: `Buffer.alloc(size)` is zero-filled and
`chunk.set(incompleteChunk)` copies the read bytes at offset 0.  (Node's
`read(size)` never returns more than `size` bytes.) -/
def padChunk (size : Nat) (c : List Nat) : List Nat :=
  if c.length = size then c else c ++ List.replicate (size - c.length) 0

/-- One step of the Chunker state machine (chunk_stream.ts lines 46-53 and
66-105), with `dur` = `chunkDuration` and `size` = `chunkSize`:
the target index is `lastEmittedChunkIndex + 1`, or `⌊t / dur⌋` when there
is no last index; a chunk whose scheduled time is in the future is not
emitted; a null read increments `loopIterationWithoutData` and, at 5,
stops the read loop (clearing the last index); a successful read is padded
and emitted. -/
def chunkerStep (dur size : Nat) (s : CState) : CEvent → CState × CAction
  | .readable => (⟨s.last, 0⟩, .readable)
  | .iter t r =>
    let idx := match s.last with
      | none => t / dur
      | some l => l + 1
    if t < idx * dur then (s, .future)
    else
      match r with
      | none =>
        if 4 ≤ s.idle then (⟨none, 0⟩, .stopped)
        else (⟨s.last, s.idle + 1⟩, .nullRead)
      | some c =>
        (⟨some idx, 0⟩, .emitted ⟨idx, t, padChunk size c, s.last.isNone⟩)

/-- Run the Chunker over an event list, collecting the action of every
event. -/
def chunkerRun (dur size : Nat) : CState → List CEvent → CState × List CAction
  | s, [] => (s, [])
  | s, e :: es =>
    let r := chunkerStep dur size s e
    let rest := chunkerRun dur size r.1 es
    (rest.1, r.2 :: rest.2)

/-- The emissions among a list of actions, in order. -/
def emitsOfActions : List CAction → List Emit :=
  List.filterMap fun a =>
    match a with
    | .emitted e => some e
    | _ => none

/-- All chunks emitted by the Chunker on an event list, from the initial
state. -/
def chunkerEmits (dur size : Nat) (events : List CEvent) : List Emit :=
  emitsOfActions (chunkerRun dur size initCState events).2

/-- The time of an event (loop iterations only). -/
def eventTime : CEvent → Option Nat
  | .iter t _ => some t
  | .readable => none

/-- The wall clock does not go backwards: iteration times are nondecreasing
and at least `t0`. -/
def timesMonoFrom (t0 : Nat) (events : List CEvent) : Prop :=
  List.Chain' (fun a b => a ≤ b) (t0 :: events.filterMap eventTime)

/-- Relation between consecutive emissions claimed by the chunker index
law: the index grows, by exactly one unless the later emission recomputed
its index from the clock as `⌊t / dur⌋`. -/
def emitStepOk (dur : Nat) (a b : Emit) : Prop :=
  a.idx < b.idx ∧ (b.idx = a.idx + 1 ∨ (b.fresh = true ∧ b.idx = b.t / dur))

end Soundsync

namespace Soundsync

theorem emitsOfActions_cons_emitted (e : Emit) (acts : List CAction) :
    emitsOfActions (.emitted e :: acts) = e :: emitsOfActions acts := rfl

theorem emitsOfActions_cons_future (acts : List CAction) :
    emitsOfActions (.future :: acts) = emitsOfActions acts := rfl

theorem emitsOfActions_cons_nullRead (acts : List CAction) :
    emitsOfActions (.nullRead :: acts) = emitsOfActions acts := rfl

theorem emitsOfActions_cons_stopped (acts : List CAction) :
    emitsOfActions (.stopped :: acts) = emitsOfActions acts := rfl

theorem emitsOfActions_cons_readable (acts : List CAction) :
    emitsOfActions (.readable :: acts) = emitsOfActions acts := rfl

/-- Generalized invariant for the chunker index law: starting from a state
`s` consistent with the last emission `prev` and a clock lower bound `t0`
(after a stop, the stopping iteration had already reached the last emitted
index's successor slot), every run produces emissions linked by
`emitStepOk`, each scheduled no later than its iteration time. -/
theorem chunkerRun_emitStepOk (dur size : Nat) (hdur : 0 < dur) :
    ∀ (events : List CEvent) (s : CState) (prev : Option Emit) (t0 : Nat),
      timesMonoFrom t0 events →
      (∀ l, s.last = some l → ∃ e, prev = some e ∧ e.idx = l) →
      (s.last = none → ∀ e, prev = some e → (e.idx + 1) * dur ≤ t0) →
      List.Chain' (emitStepOk dur)
        (prev.toList ++ emitsOfActions (chunkerRun dur size s events).2) ∧
      ∀ e ∈ emitsOfActions (chunkerRun dur size s events).2, e.idx * dur ≤ e.t := by
  intro events
  induction events with
  | nil =>
    intro s prev t0 _ _ _
    refine ⟨?_, by simp [chunkerRun, emitsOfActions]⟩
    cases prev <;> simp [chunkerRun, emitsOfActions]
  | cons ev evs ih =>
    intro s prev t0 hmono hsome hnone
    cases ev with
    | readable =>
      have hmono2 : timesMonoFrom t0 evs := by
        simpa [timesMonoFrom, List.filterMap_cons, eventTime] using hmono
      have main := ih ⟨s.last, 0⟩ prev t0 hmono2
        (fun l hl => hsome l hl) (fun h e he => hnone h e he)
      simpa [chunkerRun, chunkerStep, emitsOfActions_cons_readable] using main
    | iter t r =>
      have hmono2 : t0 ≤ t ∧ timesMonoFrom t evs := by
        simpa [timesMonoFrom, List.filterMap_cons, eventTime, List.chain'_cons]
          using hmono
      cases hlast : s.last with
      | some l =>
        obtain ⟨pe, hpe, hpeidx⟩ := hsome l hlast
        subst hpe
        by_cases hfut : t < (l + 1) * dur
        · have main := ih s (some pe) t hmono2.2 hsome
            (fun h => by rw [hlast] at h; cases h)
          simpa [chunkerRun, chunkerStep, hlast, if_pos hfut,
            emitsOfActions_cons_future] using main
        · cases r with
          | none =>
            by_cases hstop : 4 ≤ s.idle
            · have hnone2 : ∀ e, (some pe : Option Emit) = some e →
                  (e.idx + 1) * dur ≤ t := by
                intro e he
                injection he with he
                subst he
                rw [hpeidx]
                exact le_of_not_lt hfut
              have main := ih ⟨none, 0⟩ (some pe) t hmono2.2
                (fun l' hl' => by cases hl') (fun _ => hnone2)
              simpa [chunkerRun, chunkerStep, hlast, if_neg hfut, if_pos hstop,
                emitsOfActions_cons_stopped] using main
            · have main := ih ⟨s.last, s.idle + 1⟩ (some pe) t hmono2.2
                (fun l' hl' => hsome l' hl')
                (fun h => by simp only [hlast] at h; cases h)
              simpa [chunkerRun, chunkerStep, hlast, if_neg hfut, if_neg hstop,
                emitsOfActions_cons_nullRead] using main
          | some c =>
            have main := ih ⟨some (l + 1), 0⟩
              (some ⟨l + 1, t, padChunk size c, false⟩) t hmono2.2
              (fun l' hl' => ⟨⟨l + 1, t, padChunk size c, false⟩, rfl,
                Option.some.inj hl'⟩)
              (fun h => by cases h)
            constructor
            · simp only [chunkerRun, chunkerStep, hlast, if_neg hfut,
                emitsOfActions_cons_emitted, Option.isNone_some,
                Option.toList_some, List.cons_append, List.singleton_append,
                List.nil_append]
              rw [List.chain'_cons]
              refine ⟨⟨?_, Or.inl ?_⟩, ?_⟩
              · exact hpeidx ▸ Nat.lt_succ_self l
              · rw [hpeidx]
              simpa using main.1
            · simp only [chunkerRun, chunkerStep, hlast, if_neg hfut,
                emitsOfActions_cons_emitted, Option.isNone_some]
              intro e he
              rcases List.mem_cons.mp he with he | he
              · subst he
                exact le_of_not_lt hfut
              · exact main.2 e he
      | none =>
        have hguard : ¬ t < t / dur * dur := not_lt.mpr (Nat.div_mul_le_self t dur)
        cases r with
        | none =>
          by_cases hstop : 4 ≤ s.idle
          · have hnone2 : ∀ e, prev = some e → (e.idx + 1) * dur ≤ t :=
              fun e he => le_trans (hnone hlast e he) hmono2.1
            have main := ih ⟨none, 0⟩ prev t hmono2.2
              (fun l' hl' => by cases hl') (fun _ => hnone2)
            simpa [chunkerRun, chunkerStep, hlast, if_neg hguard, if_pos hstop,
              emitsOfActions_cons_stopped] using main
          · have main := ih ⟨s.last, s.idle + 1⟩ prev t hmono2.2
              (fun l' hl' => by simp only [hlast] at hl'; cases hl')
              (fun _ e he => le_trans (hnone hlast e he) hmono2.1)
            simpa [chunkerRun, chunkerStep, hlast, if_neg hguard, if_neg hstop,
              emitsOfActions_cons_nullRead] using main
        | some c =>
          have main := ih ⟨some (t / dur), 0⟩
            (some ⟨t / dur, t, padChunk size c, true⟩) t hmono2.2
            (fun l' hl' => ⟨⟨t / dur, t, padChunk size c, true⟩, rfl,
              Option.some.inj hl'⟩)
            (fun h => by cases h)
          constructor
          · simp only [chunkerRun, chunkerStep, hlast, if_neg hguard,
              emitsOfActions_cons_emitted, Option.isNone_none]
            cases prev with
            | none => simpa using main.1
            | some p =>
              have hple : p.idx + 1 ≤ t / dur :=
                (Nat.le_div_iff_mul_le hdur).mpr
                  (le_trans (hnone hlast p rfl) hmono2.1)
              simp only [Option.toList_some, List.singleton_append]
              rw [List.chain'_cons]
              refine ⟨⟨hple, Or.inr ⟨rfl, rfl⟩⟩, ?_⟩
              simpa using main.1
          · simp only [chunkerRun, chunkerStep, hlast, if_neg hguard,
              emitsOfActions_cons_emitted, Option.isNone_none]
            intro e he
            rcases List.mem_cons.mp he with he | he
            · subst he
              exact Nat.div_mul_le_self t dur
            · exact main.2 e he

end Soundsync

/-! ## C4: Chunker index law -/

/-- C4.  Chunker index law, for any event trace whose iteration times are
nondecreasing (the wall clock) and any positive chunk duration: (1) emitted
indices are strictly increasing; (2) each emitted index is the previous one
plus 1, except when the emitting iteration found no last index — which the
code reaches only through `stopReadLoop`, i.e. after the 5-null-read source
stall, or at stream start — in which case the index is recomputed as
`⌊(now - startTime) / chunkDuration⌋`; (3) no chunk is emitted for an index
whose scheduled time is still in the future
(`idx * chunkDuration ≤ now - startTime` at every emission). -/
theorem chunker_index_law (dur size : Nat) (events : List Soundsync.CEvent)
    (hdur : 0 < dur) (hmono : Soundsync.timesMonoFrom 0 events) :
    List.Chain' (fun a b => a.idx < b.idx)
      (Soundsync.chunkerEmits dur size events) ∧
    List.Chain' (fun a b =>
        b.idx = a.idx + 1 ∨ (b.fresh = true ∧ b.idx = b.t / dur))
      (Soundsync.chunkerEmits dur size events) ∧
    ∀ e ∈ Soundsync.chunkerEmits dur size events, e.idx * dur ≤ e.t := by
  have main := Soundsync.chunkerRun_emitStepOk dur size hdur events
    Soundsync.initCState none 0 hmono (fun l hl => by cases hl)
    (fun _ e he => by cases he)
  have h1 : List.Chain' (Soundsync.emitStepOk dur)
      (Soundsync.chunkerEmits dur size events) := by
    have := main.1
    simpa [Soundsync.chunkerEmits] using this
  exact ⟨h1.imp (fun _ _ h => h.1), h1.imp (fun _ _ h => h.2), main.2⟩

/-- Witness for C4: the index law applied to a concrete two-iteration trace
(`chunkDuration = 2`, `chunkSize = 1`, reads at times 0 and 2). -/
theorem chunker_index_law_witness :
    List.Chain' (fun a b => a.idx < b.idx)
      (Soundsync.chunkerEmits 2 1
        [Soundsync.CEvent.iter 0 (some [5]), Soundsync.CEvent.iter 2 (some [6])]) ∧
    List.Chain' (fun a b =>
        b.idx = a.idx + 1 ∨ (b.fresh = true ∧ b.idx = b.t / 2))
      (Soundsync.chunkerEmits 2 1
        [Soundsync.CEvent.iter 0 (some [5]), Soundsync.CEvent.iter 2 (some [6])]) ∧
    ∀ e ∈ Soundsync.chunkerEmits 2 1
        [Soundsync.CEvent.iter 0 (some [5]), Soundsync.CEvent.iter 2 (some [6])],
      e.idx * 2 ≤ e.t :=
  chunker_index_law 2 1
    [Soundsync.CEvent.iter 0 (some [5]), Soundsync.CEvent.iter 2 (some [6])]
    (by decide)
    (by simp [Soundsync.timesMonoFrom, Soundsync.eventTime, List.chain'_cons])

namespace Soundsync

/-- An incomplete read of at most `size` bytes is completed with trailing
zero bytes, and the completed chunk has exactly `size` bytes. -/
theorem padChunk_spec (size : Nat) (c : List Nat) (h : c.length ≤ size) :
    padChunk size c = c ++ List.replicate (size - c.length) 0 ∧
    (padChunk size c).length = size := by
  constructor
  · rw [padChunk]
    split
    · rename_i heq
      rw [heq]
      simp
    · rfl
  · rw [padChunk]
    split
    · assumption
    · simp only [List.length_append, List.length_replicate]
      omega

/-- Every emission of a Chunker step comes from a successful read of that
very event, padded with `padChunk`. -/
theorem chunkerStep_emitted (dur size : Nat) (s : CState) (ev : CEvent)
    (e : Emit) (h : (chunkerStep dur size s ev).2 = .emitted e) :
    ∃ t c, ev = .iter t (some c) ∧ e.chunk = padChunk size c := by
  cases ev with
  | readable => cases h
  | iter t r =>
    cases r with
    | none =>
      exfalso
      simp only [chunkerStep] at h
      split at h
      · cases h
      · split at h <;> cases h
    | some c =>
      refine ⟨t, c, rfl, ?_⟩
      simp only [chunkerStep] at h
      split at h
      · cases h
      · injection h with h2
        rw [← h2]

/-- Generalized form of the chunk-size invariant: whenever every read in
the trace returns at most `size` bytes (the Node stream contract for
`read(size)`), every emitted chunk is the bytes of one of the trace's reads
followed by zero bytes up to exactly `size` bytes. -/
theorem chunkerRun_chunk_sizes (dur size : Nat) :
    ∀ (events : List CEvent) (s : CState),
      (∀ t c, CEvent.iter t (some c) ∈ events → c.length ≤ size) →
      ∀ e ∈ emitsOfActions (chunkerRun dur size s events).2,
        e.chunk.length = size ∧
        ∃ t c, CEvent.iter t (some c) ∈ events ∧
          e.chunk = c ++ List.replicate (size - c.length) 0 := by
  intro events
  induction events with
  | nil =>
    intro s _ e he
    simp [chunkerRun, emitsOfActions] at he
  | cons ev evs ih =>
    intro s hread e he
    have hread2 : ∀ t c, CEvent.iter t (some c) ∈ evs → c.length ≤ size :=
      fun t c hm => hread t c (List.mem_cons_of_mem _ hm)
    have hrest : e ∈ emitsOfActions
        (chunkerRun dur size (chunkerStep dur size s ev).1 evs).2 →
        e.chunk.length = size ∧
        ∃ t c, CEvent.iter t (some c) ∈ ev :: evs ∧
          e.chunk = c ++ List.replicate (size - c.length) 0 := by
      intro hm
      obtain ⟨h1, t, c, hmem, h2⟩ := ih _ hread2 e hm
      exact ⟨h1, t, c, List.mem_cons_of_mem _ hmem, h2⟩
    rw [chunkerRun] at he
    rcases hact : (chunkerStep dur size s ev).2 with _ | _ | _ | e0 | _ <;>
      rw [hact] at he
    case future => exact hrest (by rwa [emitsOfActions_cons_future] at he)
    case nullRead => exact hrest (by rwa [emitsOfActions_cons_nullRead] at he)
    case stopped => exact hrest (by rwa [emitsOfActions_cons_stopped] at he)
    case readable => exact hrest (by rwa [emitsOfActions_cons_readable] at he)
    case emitted =>
      rw [emitsOfActions_cons_emitted] at he
      rcases List.mem_cons.mp he with he | he
      · subst he
        obtain ⟨t, c, hev, hchunk⟩ := chunkerStep_emitted dur size s ev e hact
        subst hev
        have hlen := hread t c (List.mem_cons_self _ _)
        obtain ⟨hpad, hplen⟩ := padChunk_spec size c hlen
        refine ⟨by rw [hchunk]; exact hplen, t, c, List.mem_cons_self _ _, ?_⟩
        rw [hchunk, hpad]
      · exact hrest he

end Soundsync

/-! ## C5: every Chunker chunk has exactly chunk_bytes bytes -/

/-- C5.  For any source byte sequence (any event trace whose reads return at
most `size` bytes, per the Node `read(size)` contract), every chunk the
Chunker emits has exactly `size` bytes, and is the bytes of one read
followed by zero bytes up to `size`; in particular feeding `size + 3` bytes
(with `size = 8`: one full read, then the 3-byte end-of-stream tail) yields
one full chunk and one chunk of the 3 bytes followed by `size - 3` zeros. -/
theorem chunker_chunk_sizes_law (dur size : Nat)
    (events : List Soundsync.CEvent)
    (hread : ∀ t c, Soundsync.CEvent.iter t (some c) ∈ events →
      c.length ≤ size) :
    (∀ e ∈ Soundsync.chunkerEmits dur size events,
      e.chunk.length = size ∧
      ∃ t c, Soundsync.CEvent.iter t (some c) ∈ events ∧
        e.chunk = c ++ List.replicate (size - c.length) 0) ∧
    (Soundsync.chunkerEmits 10 8
        [Soundsync.CEvent.iter 0 (some [1, 2, 3, 4, 5, 6, 7, 8]),
         Soundsync.CEvent.iter 10 (some [9, 9, 9])]).map Soundsync.Emit.chunk =
      [[1, 2, 3, 4, 5, 6, 7, 8], [9, 9, 9, 0, 0, 0, 0, 0]] :=
  ⟨fun e he => Soundsync.chunkerRun_chunk_sizes dur size events
    Soundsync.initCState hread e he, by decide⟩

/-- Witness for C5: the chunk-size law applied to the concrete short-tail
trace (read of 8 bytes then a 3-byte tail, `chunkSize = 8`), instantiated
at the padded tail emission. -/
theorem chunker_chunk_sizes_law_witness :
    ([9, 9, 9, 0, 0, 0, 0, 0] : List Nat).length = 8 ∧
    ∃ t c, Soundsync.CEvent.iter t (some c) ∈
        [Soundsync.CEvent.iter 0 (some [1, 2, 3, 4, 5, 6, 7, 8]),
         Soundsync.CEvent.iter 10 (some [9, 9, 9])] ∧
      ([9, 9, 9, 0, 0, 0, 0, 0] : List Nat) =
        c ++ List.replicate (8 - c.length) 0 :=
  (chunker_chunk_sizes_law 10 8
    [Soundsync.CEvent.iter 0 (some [1, 2, 3, 4, 5, 6, 7, 8]),
     Soundsync.CEvent.iter 10 (some [9, 9, 9])]
    (by
      intro t c hm
      rcases List.mem_cons.mp hm with h | hm2
      · cases h
        decide
      · rcases List.mem_cons.mp hm2 with h | h
        · cases h
          decide
        · cases h)).1
    ⟨1, 10, [9, 9, 9, 0, 0, 0, 0, 0], false⟩ (by decide)

namespace Soundsync

/-- The actions of a trace with the future-breaks removed (a future break
performs no read attempt and touches no counter). -/
def dropFutures (acts : List CAction) : List CAction :=
  acts.filter fun a => decide (a ≠ CAction.future)

theorem dropFutures_append (l1 l2 : List CAction) :
    dropFutures (l1 ++ l2) = dropFutures l1 ++ dropFutures l2 := by
  simp [dropFutures]

/-- Exhaustive description of one Chunker step, as needed for the idle
counter: a readable, a stop (only with the idle counter at its bound), an
emission, each of which zeroes the counter; a future break, which changes
nothing; or a null read, which increments the counter below its bound. -/
theorem chunkerStep_cases (dur size : Nat) (s : CState) (ev : CEvent) :
    ((chunkerStep dur size s ev).2 = .readable ∧
      (chunkerStep dur size s ev).1.idle = 0) ∨
    ((chunkerStep dur size s ev).2 = .future ∧
      (chunkerStep dur size s ev).1 = s) ∨
    ((chunkerStep dur size s ev).2 = .stopped ∧
      (chunkerStep dur size s ev).1.idle = 0 ∧ 4 ≤ s.idle) ∨
    ((chunkerStep dur size s ev).2 = .nullRead ∧
      (chunkerStep dur size s ev).1.idle = s.idle + 1 ∧ s.idle < 4) ∨
    (∃ e, (chunkerStep dur size s ev).2 = .emitted e ∧
      (chunkerStep dur size s ev).1.idle = 0) := by
  cases ev with
  | readable => exact Or.inl ⟨rfl, rfl⟩
  | iter t r =>
    cases hls : s.last with
    | none =>
      simp only [chunkerStep, hls]
      by_cases hfut : t < t / dur * dur
      · simp only [if_pos hfut]
        simp
      · simp only [if_neg hfut]
        cases r with
        | none =>
          by_cases hstop : 4 ≤ s.idle
          · simp only [if_pos hstop]
            simp [hstop]
          · simp only [if_neg hstop]
            simp
            omega
        | some c =>
          simp
    | some l =>
      simp only [chunkerStep, hls]
      by_cases hfut : t < (l + 1) * dur
      · simp only [if_pos hfut]
        simp
      · simp only [if_neg hfut]
        cases r with
        | none =>
          by_cases hstop : 4 ≤ s.idle
          · simp only [if_pos hstop]
            simp [hstop]
          · simp only [if_neg hstop]
            simp
            omega
        | some c =>
          simp

/-- Generalized stop characterization: if the action trace of a run whose
start state has `idle ≤ 4`, prefixed by an already-produced action list
`acc` whose future-free form ends in `idle` consecutive null reads,
contains a `stopped` action, then the future-free actions before that stop
end in 4 consecutive null reads. -/
theorem chunkerRun_stop_needs_nulls (dur size : Nat) :
    ∀ (events : List CEvent) (s : CState) (acc : List CAction),
      s.idle ≤ 4 →
      (∃ q, dropFutures acc = q ++ List.replicate s.idle CAction.nullRead) →
      ∀ pre post,
        (chunkerRun dur size s events).2 = pre ++ CAction.stopped :: post →
        ∃ q, dropFutures (acc ++ pre) =
          q ++ List.replicate 4 CAction.nullRead := by
  intro events
  induction events with
  | nil =>
    intro s acc _ _ pre post h
    rw [chunkerRun] at h
    exact absurd h.symm (by simp)
  | cons ev evs ih =>
    intro s acc hidle hinv pre post h
    rw [chunkerRun] at h
    simp only at h
    rcases chunkerStep_cases dur size s ev with
      ⟨ha, hs⟩ | ⟨ha, hs⟩ | ⟨ha, hs, hge⟩ | ⟨ha, hs, hlt⟩ | ⟨e0, ha, hs⟩ <;>
      rw [ha] at h
    · -- readable
      cases pre with
      | nil => cases (List.cons_eq_cons.mp h).1
      | cons a pre2 =>
        obtain ⟨ha2, h2⟩ := List.cons_eq_cons.mp h
        subst ha2
        rw [List.append_cons acc]
        refine ih _ (acc ++ [CAction.readable]) (by omega) ?_ pre2 post h2
        rw [hs]
        exact ⟨dropFutures (acc ++ [CAction.readable]),
          by rw [List.replicate_zero, List.append_nil]⟩
    · -- future
      cases pre with
      | nil => cases (List.cons_eq_cons.mp h).1
      | cons a pre2 =>
        obtain ⟨ha2, h2⟩ := List.cons_eq_cons.mp h
        subst ha2
        rw [List.append_cons acc]
        refine ih _ (acc ++ [CAction.future]) ?_ ?_ pre2 post h2
        · rw [hs]; exact hidle
        · rw [hs]
          obtain ⟨q, hq⟩ := hinv
          refine ⟨q, ?_⟩
          rw [dropFutures_append]
          simpa [dropFutures] using hq
    · -- stopped
      cases pre with
      | nil =>
        obtain ⟨_, _⟩ := List.cons_eq_cons.mp h
        obtain ⟨q, hq⟩ := hinv
        have h4 : s.idle = 4 := by omega
        rw [List.append_nil]
        exact ⟨q, by rw [hq, h4]⟩
      | cons a pre2 =>
        obtain ⟨ha2, h2⟩ := List.cons_eq_cons.mp h
        subst ha2
        rw [List.append_cons acc]
        refine ih _ (acc ++ [CAction.stopped]) (by omega) ?_ pre2 post h2
        rw [hs]
        exact ⟨dropFutures (acc ++ [CAction.stopped]),
          by rw [List.replicate_zero, List.append_nil]⟩
    · -- nullRead
      cases pre with
      | nil => cases (List.cons_eq_cons.mp h).1
      | cons a pre2 =>
        obtain ⟨ha2, h2⟩ := List.cons_eq_cons.mp h
        subst ha2
        rw [List.append_cons acc]
        refine ih _ (acc ++ [CAction.nullRead]) ?_ ?_ pre2 post h2
        · rw [hs]; omega
        · rw [hs]
          obtain ⟨q, hq⟩ := hinv
          refine ⟨q, ?_⟩
          rw [dropFutures_append, hq]
          have : dropFutures [CAction.nullRead] = [CAction.nullRead] := rfl
          rw [this, List.append_assoc, ← List.replicate_succ']
    · -- emitted
      cases pre with
      | nil => cases (List.cons_eq_cons.mp h).1
      | cons a pre2 =>
        obtain ⟨ha2, h2⟩ := List.cons_eq_cons.mp h
        subst ha2
        rw [List.append_cons acc]
        refine ih _ (acc ++ [CAction.emitted e0]) (by omega) ?_ pre2 post h2
        rw [hs]
        exact ⟨dropFutures (acc ++ [CAction.emitted e0]),
          by rw [List.replicate_zero, List.append_nil]⟩

/-- Any readable notification zeroes the idle counter, whatever state the
Chunker is in (the read loop may already be running). -/
theorem chunkerRun_readable_idle (dur size : Nat) :
    ∀ (events : List CEvent) (s : CState),
      (chunkerRun dur size s (events ++ [CEvent.readable])).1.idle = 0 := by
  intro events
  induction events with
  | nil => intro s; rfl
  | cons ev evs ih =>
    intro s
    rw [List.cons_append, chunkerRun]
    exact ih _

end Soundsync

/-! ## C10: readable resets the idle counter; stops need 5 no-data reads -/

/-- C10.  (1) Every 'readable' notification from the source resets the
Chunker's idle counter (`loopIterationWithoutData`) to zero — including when
the read loop is already running, since `startReadLoop` zeroes the counter
before checking the interval.  (2) Consequently the Chunker stops its timer
and clears `lastEmittedChunkIndex` (a `stopped` action) only after at least
5 consecutive no-data read attempts with no intervening readable signal or
successful read: before every `stopped` action, the preceding actions with
the future-breaks removed (those perform no read attempt) end in 4
consecutive null reads, the stop itself being the 5th. -/
theorem chunker_readable_resets_idle :
    (∀ (dur size : Nat) (events : List Soundsync.CEvent) (s : Soundsync.CState),
      (Soundsync.chunkerRun dur size s
        (events ++ [Soundsync.CEvent.readable])).1.idle = 0) ∧
    (∀ (dur size : Nat) (events : List Soundsync.CEvent)
        (pre post : List Soundsync.CAction),
      (Soundsync.chunkerRun dur size Soundsync.initCState events).2 =
        pre ++ Soundsync.CAction.stopped :: post →
      ∃ q, Soundsync.dropFutures pre =
        q ++ List.replicate 4 Soundsync.CAction.nullRead) := by
  refine ⟨fun dur size events s =>
    Soundsync.chunkerRun_readable_idle dur size events s, ?_⟩
  intro dur size events pre post h
  have main := Soundsync.chunkerRun_stop_needs_nulls dur size events
    Soundsync.initCState [] (by simp [Soundsync.initCState])
    ⟨[], by simp [Soundsync.dropFutures, Soundsync.initCState]⟩ pre post h
  simpa using main

/-- Witness for C10: five consecutive null reads stop the loop; the theorem
applied to that concrete trace (and a concrete readable reset). -/
theorem chunker_readable_resets_idle_witness :
    (Soundsync.chunkerRun 1 1 Soundsync.initCState
      ([Soundsync.CEvent.iter 0 (some [2])] ++ [Soundsync.CEvent.readable])).1.idle = 0 ∧
    ∃ q, Soundsync.dropFutures (List.replicate 4 Soundsync.CAction.nullRead) =
      q ++ List.replicate 4 Soundsync.CAction.nullRead :=
  ⟨chunker_readable_resets_idle.1 1 1 [Soundsync.CEvent.iter 0 (some [2])]
      Soundsync.initCState,
   chunker_readable_resets_idle.2 1 1
     (List.replicate 5 (Soundsync.CEvent.iter 9 none))
     (List.replicate 4 Soundsync.CAction.nullRead) [] (by decide)⟩

namespace Soundsync

/-! ### Resampler (AudioChunkStreamResampler) -/

/-- Modelled from the spec: `rollover` is imported from src/utils/misc,
which is not among the sources; the spec defines the read offset as
`(write_offset - buffered_bytes) mod capacity`, so `rollover v lo hi` wraps
`v` into `[lo, hi)` modularly (Lean's `Int` `%` is the nonnegative
Euclidean remainder for a positive modulus). -/
def rollover (v lo hi : Int) : Int :=
  lo + (v - lo) % (hi - lo)

/-- `AudioChunkStreamResampler` state, abstracting away the byte contents:
the FIFO `chunkIndexToEmit`, `bufferSize` and `bufferOffset` (into the
circular alignment buffer).  The bytes in the alignment buffer are not
tracked — no claim is about them, only about indices and offsets. -/
structure RState where
  queue : List Nat
  bufSize : Nat
  bufOffset : Nat
deriving DecidableEq, Repr

/-- Resampler state at construction. -/
def initRState : RState := ⟨[], 0, 0⟩

/-- One resampler input: whether `resampler.soxrModule` is initialized when
the chunk arrives, the chunk's index, and the number of bytes the external
soxr resampler returns for it (`processChunk` is an external library call,
abstracted by its output length). -/
structure RInput where
  ready : Bool
  i : Nat
  outLen : Nat
deriving DecidableEq, Repr

/-- The emit loop of `AudioChunkStreamResampler.write` (chunk_stream.ts
lines 283-295): while at least one output frame (`target` bytes,
`outputChunkTargetLength`) is buffered and an input index is pending, pop
the oldest index, emit the frame whose read offset is
`rollover(bufferOffset - bufferSize, 0, cap)`, and consume `target` bytes.
Returns (remaining queue, remaining buffered bytes, emitted
(index, read offset) pairs in order). -/
def resamplerDrain (cap target : Nat) (off : Nat) :
    List Nat → Nat → List Nat × Nat × List (Nat × Int)
  | [], size => ([], size, [])
  | j :: q, size =>
    if target ≤ size then
      let r := rollover ((off : Int) - (size : Int)) 0 (cap : Int)
      let rest := resamplerDrain cap target off q (size - target)
      (rest.1, rest.2.1, (j, r) :: rest.2.2)
    else (j :: q, size, [])

/-- `AudioChunkStreamResampler.write` (chunk_stream.ts lines 249-298), with
`cap` the alignment buffer capacity (`MAX_LATENCY * (outRate / 1000)`
bytes): an uninitialized resampler drops the chunk; otherwise the index is
queued, the resampled bytes are appended to the circular buffer
(the two-pass byte copy of lines 270-278 only affects contents;
`bufferSize` and `bufferOffset` follow lines 280-281), and the emit loop
runs. -/
def resamplerWrite (cap target : Nat) (s : RState) (x : RInput) :
    RState × List (Nat × Int) :=
  if !x.ready then (s, [])
  else
    let q := s.queue ++ [x.i]
    if x.outLen = 0 then (⟨q, s.bufSize, s.bufOffset⟩, [])
    else
      let size := s.bufSize + x.outLen
      let off := (s.bufOffset + x.outLen) % cap
      let d := resamplerDrain cap target off q size
      (⟨d.1, d.2.1, off⟩, d.2.2)

/-- Feed a list of inputs through the Resampler, collecting all emitted
(index, read offset) pairs in order. -/
def resamplerRun (cap target : Nat) : RState → List RInput → RState × List (Nat × Int)
  | s, [] => (s, [])
  | s, x :: xs =>
    let r := resamplerWrite cap target s x
    let rest := resamplerRun cap target r.1 xs
    (rest.1, r.2 ++ rest.2)

/-- The emit loop pops indices from the front of the FIFO: the emitted
indices followed by the remaining queue are exactly the queue it started
from. -/
theorem resamplerDrain_queue (cap target off : Nat) :
    ∀ (q : List Nat) (size : Nat),
      (resamplerDrain cap target off q size).2.2.map Prod.fst ++
        (resamplerDrain cap target off q size).1 = q := by
  intro q
  induction q with
  | nil => intro size; simp [resamplerDrain]
  | cons j q ih =>
    intro size
    rw [resamplerDrain]
    split
    · simp only [List.map_cons, List.cons_append, List.cons.injEq, true_and]
      exact ih (size - target)
    · simp

/-- FIFO invariant of a whole run: emitted indices followed by the pending
queue equal the starting queue followed by all consumed indices. -/
theorem resamplerRun_queue (cap target : Nat) :
    ∀ (inputs : List RInput) (s : RState),
      (∀ x ∈ inputs, x.ready = true) →
      (resamplerRun cap target s inputs).2.map Prod.fst ++
        (resamplerRun cap target s inputs).1.queue =
      s.queue ++ inputs.map RInput.i := by
  intro inputs
  induction inputs with
  | nil => intro s _; simp [resamplerRun]
  | cons x xs ih =>
    intro s hready
    have hx : x.ready = true := hready x (List.mem_cons_self _ _)
    have hxs : ∀ y ∈ xs, y.ready = true :=
      fun y hy => hready y (List.mem_cons_of_mem _ hy)
    rw [resamplerRun]
    simp only [resamplerWrite, hx, Bool.not_true, Bool.false_eq_true, if_false]
    by_cases hlen : x.outLen = 0
    · simp only [if_pos hlen]
      have main := ih ⟨s.queue ++ [x.i], s.bufSize, s.bufOffset⟩ hxs
      simp only [List.map_nil, List.nil_append, List.map_cons]
      rw [main]
      simp
    · simp only [if_neg hlen]
      have main := ih ⟨(resamplerDrain cap target
          ((s.bufOffset + x.outLen) % cap) (s.queue ++ [x.i])
          (s.bufSize + x.outLen)).1,
        (resamplerDrain cap target ((s.bufOffset + x.outLen) % cap)
          (s.queue ++ [x.i]) (s.bufSize + x.outLen)).2.1,
        (s.bufOffset + x.outLen) % cap⟩ hxs
      simp only [List.map_append, List.map_cons, List.append_assoc] at main ⊢
      rw [main, ← List.append_assoc, resamplerDrain_queue]
      simp

end Soundsync

/-! ## C7: Resampler index preservation -/

/-- C7.  Assuming the resampler is initialized for the whole run, the
sequence of indices the Resampler emits is a prefix of the sequence of
indices it consumed — the k-th emitted index equals the k-th consumed index
(indices pass through the FIFO in order; an input producing less than one
output frame leaves its index queued for the first subsequent full frame).
In particular feeding 100 indexed chunks through a configuration where each
chunk yields exactly one full output frame (the steady state of the
`48000→48000` configuration: 3840-byte frames, 7680-byte alignment buffer
per channel) emits 100 frames with identical indices in order. -/
theorem resampler_index_fifo :
    (∀ (cap target : Nat) (inputs : List Soundsync.RInput),
      (∀ x ∈ inputs, x.ready = true) →
      (Soundsync.resamplerRun cap target Soundsync.initRState inputs).2.map
          Prod.fst <+:
        inputs.map Soundsync.RInput.i) ∧
    (Soundsync.resamplerRun 7680 3840 Soundsync.initRState
        ((List.range 100).map (fun k => Soundsync.RInput.mk true k 3840))).2.map
        Prod.fst =
      List.range 100 := by
  constructor
  · intro cap target inputs hready
    exact ⟨(Soundsync.resamplerRun cap target Soundsync.initRState inputs).1.queue,
      by simpa [Soundsync.initRState] using
        Soundsync.resamplerRun_queue cap target inputs Soundsync.initRState hready⟩
  · decide

/-- Witness for C7: the FIFO prefix statement applied to the concrete
100-chunk run. -/
theorem resampler_index_fifo_witness :
    (Soundsync.resamplerRun 7680 3840 Soundsync.initRState
        ((List.range 100).map (fun k => Soundsync.RInput.mk true k 3840))).2.map
        Prod.fst <+:
      ((List.range 100).map (fun k => Soundsync.RInput.mk true k 3840)).map
        Soundsync.RInput.i :=
  resampler_index_fifo.1 7680 3840
    ((List.range 100).map (fun k => Soundsync.RInput.mk true k 3840))
    (by
      intro x hx
      rcases List.mem_map.mp hx with ⟨k, _, rfl⟩
      rfl)

namespace Soundsync

/-- A frame slot: if `x` is a multiple of the frame size and the capacity is
a positive multiple of the frame size, then `x mod cap` lands a whole frame
before the wrap: `x % cap + target ≤ cap`. -/
theorem aligned_slot (cap target : Nat) (x : Int) (h1 : 0 < target)
    (h2 : (target : Int) ∣ (cap : Int)) (h3 : 0 < cap)
    (hx : x % (target : Int) = 0) :
    0 ≤ x % (cap : Int) ∧ x % (cap : Int) + target ≤ cap := by
  have hcapne : (cap : Int) ≠ 0 := by
    exact_mod_cast Nat.pos_iff_ne_zero.mp h3
  have hr0 : 0 ≤ x % (cap : Int) := Int.emod_nonneg x hcapne
  have hrlt : x % (cap : Int) < cap := Int.emod_lt_of_pos x (by exact_mod_cast h3)
  refine ⟨hr0, ?_⟩
  have hdvd : (target : Int) ∣ x % (cap : Int) := by
    have h := Int.emod_emod_of_dvd x h2
    rw [hx] at h
    exact Int.dvd_of_emod_eq_zero h
  obtain ⟨a, ha⟩ := hdvd
  obtain ⟨b, hb⟩ := h2
  have htpos : (0 : Int) < target := by exact_mod_cast h1
  have hab : a < b := by
    have : (target : Int) * a < target * b := by rw [← ha, ← hb]; exact hrlt
    exact lt_of_mul_lt_mul_left this (le_of_lt htpos)
  calc x % (cap : Int) + target = target * (a + 1) := by rw [ha]; ring
    _ ≤ target * b := by
        have : a + 1 ≤ b := hab
        exact mul_le_mul_of_nonneg_left this (le_of_lt htpos)
    _ = cap := hb.symm

/-- The emit loop preserves the frame alignment of
`bufferOffset - bufferSize` and every frame it emits starts at a read
offset at least one whole frame before the wrap. -/
theorem resamplerDrain_aligned (cap target : Nat) (h1 : 0 < target)
    (h2 : (target : Int) ∣ (cap : Int)) (h3 : 0 < cap) (off : Nat) :
    ∀ (q : List Nat) (size : Nat),
      ((off : Int) - (size : Int)) % (target : Int) = 0 →
      (∀ e ∈ (resamplerDrain cap target off q size).2.2,
        0 ≤ e.2 ∧ e.2 + target ≤ cap) ∧
      ((off : Int) - ((resamplerDrain cap target off q size).2.1 : Int)) %
        (target : Int) = 0 := by
  intro q
  induction q with
  | nil =>
    intro size hsz
    exact ⟨by simp [resamplerDrain], hsz⟩
  | cons j q ih =>
    intro size hsz
    rw [resamplerDrain]
    split
    · rename_i hts
      have hcast : ((size - target : Nat) : Int) = (size : Int) - target := by
        omega
      have hsz2 : ((off : Int) - ((size - target : Nat) : Int)) %
          (target : Int) = 0 := by
        rw [hcast, show (off : Int) - ((size : Int) - target) =
          (off : Int) - size + target * 1 from by ring,
          Int.add_mul_emod_self_left]
        exact hsz
      obtain ⟨ih1, ih2⟩ := ih (size - target) hsz2
      refine ⟨?_, ih2⟩
      intro e he
      rcases List.mem_cons.mp he with he | he
      · subst he
        simp only [rollover, Int.sub_zero, Int.zero_add]
        exact aligned_slot cap target _ h1 h2 h3 hsz
      · exact ih1 e he
    · exact ⟨by simp, hsz⟩

/-- One write preserves the frame alignment of
`bufferOffset - bufferSize` modulo the frame size, and all its emissions
respect the no-straddle bound. -/
theorem resamplerWrite_aligned (cap target : Nat) (h1 : 0 < target)
    (h2 : (target : Int) ∣ (cap : Int)) (h3 : 0 < cap) (s : RState)
    (x : RInput)
    (hs : ((s.bufOffset : Int) - s.bufSize) % (target : Int) = 0) :
    (∀ e ∈ (resamplerWrite cap target s x).2,
      0 ≤ e.2 ∧ e.2 + target ≤ cap) ∧
    (((resamplerWrite cap target s x).1.bufOffset : Int) -
      (resamplerWrite cap target s x).1.bufSize) % (target : Int) = 0 := by
  rw [resamplerWrite]
  by_cases hready : x.ready
  · simp only [hready, Bool.not_true, Bool.false_eq_true, if_false]
    by_cases hlen : x.outLen = 0
    · simp only [if_pos hlen]
      exact ⟨by simp, hs⟩
    · simp only [if_neg hlen]
      have hpre : ((((s.bufOffset + x.outLen) % cap : Nat) : Int) -
          ((s.bufSize + x.outLen : Nat) : Int)) % (target : Int) = 0 := by
        push_cast
        rw [Int.sub_emod, Int.emod_emod_of_dvd _ h2, ← Int.sub_emod,
          show ((s.bufOffset : Int) + x.outLen) - ((s.bufSize : Int) + x.outLen) =
            (s.bufOffset : Int) - s.bufSize from by ring]
        exact hs
      have main := resamplerDrain_aligned cap target h1 h2 h3
        ((s.bufOffset + x.outLen) % cap) (s.queue ++ [x.i])
        (s.bufSize + x.outLen) (by exact_mod_cast hpre)
      exact ⟨fun e he => main.1 e he, by exact_mod_cast main.2⟩
  · simp only [Bool.not_eq_true] at hready
    simp only [hready, Bool.not_false, if_true]
    exact ⟨by simp, hs⟩

end Soundsync

/-! ## C8: Resampler no-straddle invariant -/

/-- C8.  Given that the circular alignment buffer's capacity is a positive
multiple of `output_frame_bytes` (as asserted at construction for
`MAX_LATENCY * (outRate / 1000)`), in every reachable state — i.e. on every
input sequence fed from the initial state — every frame the Resampler
emits has a read offset `r = rollover(bufferOffset - bufferSize, 0, cap)`
with `0 ≤ r` and `r + output_frame_bytes ≤ cap`: an emitted frame slice
never straddles the wrap of the circular buffer. -/
theorem resampler_no_straddle (cap target : Nat) (inputs : List Soundsync.RInput)
    (h1 : 0 < target) (h2 : target ∣ cap) (h3 : 0 < cap) :
    ∀ e ∈ (Soundsync.resamplerRun cap target Soundsync.initRState inputs).2,
      0 ≤ e.2 ∧ e.2 + target ≤ cap := by
  have h2i : (target : Int) ∣ (cap : Int) := Int.natCast_dvd_natCast.mpr h2
  have main : ∀ (l : List Soundsync.RInput) (s : Soundsync.RState),
      ((s.bufOffset : Int) - s.bufSize) % (target : Int) = 0 →
      ∀ e ∈ (Soundsync.resamplerRun cap target s l).2,
        0 ≤ e.2 ∧ e.2 + target ≤ cap := by
    intro l
    induction l with
    | nil => intro s _ e he; simp [Soundsync.resamplerRun] at he
    | cons x xs ih =>
      intro s hsal e he
      rw [Soundsync.resamplerRun] at he
      obtain ⟨hw1, hw2⟩ := Soundsync.resamplerWrite_aligned cap target h1 h2i h3
        s x hsal
      rcases List.mem_append.mp he with he | he
      · exact hw1 e he
      · exact ih _ hw2 e he
  exact main inputs Soundsync.initRState (by simp [Soundsync.initRState])

/-- Witness for C8: the no-straddle bound applied to a concrete run
(capacity 8, frame size 4, two writes of 6 resampled bytes each),
instantiated at the second emission, whose read offset wraps to 4. -/
theorem resampler_no_straddle_witness :
    (0 : Int) ≤ (4 : Int) ∧ (4 : Int) + (4 : Nat) ≤ (8 : Nat) :=
  resampler_no_straddle 8 4
    [Soundsync.RInput.mk true 0 6, Soundsync.RInput.mk true 1 6]
    (by decide) (by decide) (by decide) ((1 : Nat), (4 : Int)) (by decide)
